import Mathlib

/-!
Verification development for the `mstem` morphological stemmer
(`src/mstem/mstem.py`).

The Python module is shallowly embedded here.  Tokens (Python `str`) are
lists of characters.  The `regex` patterns appearing in rule tables are
anchored literals (`^core`, `core$`) or literal class markers
(`\x7b\x7bNAME\x7d\x7d`); the embedding models exactly this
metacharacter-free fragment of the pattern language, which covers every
pattern the specification discusses.  `unicodedata.normalize('NFD', s)` is
modelled on the character repertoire used in this development: U+00E9
(precomposed e-acute) canonically decomposes to U+0065 U+0301, and every
other character appearing here is its own canonical decomposition (no
canonical reordering arises on this repertoire).
-/

deriving instance DecidableEq for Except

namespace Mstem

/-- A token: a Python string, modelled as a list of characters. -/
abbrev Tok := List Char

/-- Precomposed LATIN SMALL LETTER E WITH ACUTE, U+00E9. -/
def eAcute : Char := Char.ofNat 233

/-- COMBINING ACUTE ACCENT, U+0301. -/
def combAcute : Char := Char.ofNat 769

/-- Left brace character, written by code point. -/
def lbrace : Char := Char.ofNat 123

/-- Right brace character, written by code point. -/
def rbrace : Char := Char.ofNat 125

/-- Canonical decomposition of one character (the action of Unicode NFD on
the repertoire used in this development): U+00E9 decomposes to
U+0065 U+0301; every other character used here decomposes to itself. -/
def charNFD (c : Char) : Tok :=
  if c = eAcute then ['e', combAcute] else [c]

/-- `unicodedata.normalize('NFD', s)`: concatenation of the per-character
canonical decompositions. -/
def nfd (s : Tok) : Tok := s.flatMap charNFD

/-- Whitespace recognised by Python `str.strip` (the characters relevant to
tab-separated lexicon lines). -/
def isSpaceChar (c : Char) : Bool :=
  c = ' ' || c = '\t' || c = '\n' || c = '\r'

/-- Python `line.strip()`: remove leading and trailing whitespace. -/
def strip (s : Tok) : Tok :=
  ((s.dropWhile isSpaceChar).reverse.dropWhile isSpaceChar).reverse

/-- One line of `Stemmer._read_lex`: `line.strip().split(delimiter)[0]`.
Python `str.split` with an explicit separator never fails and never returns
an empty list, so the first record always exists (it is `''` for an empty
line). -/
def firstField (delim : Char) (line : Tok) : Tok :=
  ((strip line).splitOn delim).headI

/-- `Stemmer._read_lex`: every line of every lexicon file contributes the
first delimiter-separated field of its stripped text.  The Python `set` is
modelled as a list queried only through membership. -/
def readLex (delim : Char) (files : List (List Tok)) : List Tok :=
  files.flatMap (fun lines => lines.map (firstField delim))

/-- Affix position classes assigned by `Stemmer._read_rules`. -/
inductive Pos where
  | pre : Pos
  | suf : Pos
  | del : Pos
deriving DecidableEq

/-- Construction-time failures of `Stemmer._read_rules`: the explicit
`MalformedRuleError`, and the Python `IndexError` escaping from `a[0]` /
`a[-1]` on an empty pattern. -/
inductive RuleErr where
  | malformed : RuleErr
  | indexError : RuleErr
deriving DecidableEq

/-- Python `a[-n:]`: the last `min(n, len a)` characters of `a`. -/
def lastN (n : Nat) (s : Tok) : Tok := (s.reverse.take n).reverse

/-- The anchor classification of `Stemmer._read_rules`, in source order:
`a[:2] == '\x7b\x7b' and a[-2:] == '\x7d\x7d'` gives the delete class, else
`a[0] == '^'` gives the prefix class (raising `IndexError` when `a` is
empty), else `a[-1] == '$'` gives the suffix class, else
`MalformedRuleError`. -/
def classify (a : Tok) : Except RuleErr Pos :=
  if a.take 2 = [lbrace, lbrace] ∧ lastN 2 a = [rbrace, rbrace] then
    Except.ok Pos.del
  else
    match a with
    | [] => Except.error RuleErr.indexError
    | c :: _ =>
      if c = '^' then Except.ok Pos.pre
      else if lastN 1 a = ['$'] then Except.ok Pos.suf
      else Except.error RuleErr.malformed

/-- A compiled pattern, covering the anchored-literal fragment of the rule
pattern language: `^core`, `core$`, or a bare literal (class markers). -/
inductive Pat where
  | startsWith : Tok → Pat
  | endsWith : Tok → Pat
  | lit : Tok → Pat
deriving DecidableEq

/-- Whether a literal occurs as a contiguous substring (regex `search` for a
literal pattern). -/
def occursB (p : Tok) : Tok → Bool
  | [] => p.isEmpty
  | c :: rest => p.isPrefixOf (c :: rest) || occursB p rest

/-- `a_re.search(token)` followed by `.group(0)`: the literal substring
matched by the pattern, when there is a match.  For an anchored literal the
matched text is the literal core itself. -/
def Pat.search : Pat → Tok → Option Tok
  | Pat.startsWith core, t => if core.isPrefixOf t then some core else none
  | Pat.endsWith core, t => if core.isSuffixOf t then some core else none
  | Pat.lit core, t => if occursB core t then some core else none

/-- `a_re.sub(b, t, 1)` for a literal pattern: replace the leftmost
occurrence only. -/
def replaceFirst (p b : Tok) : Tok → Tok
  | [] => if p = [] then b else []
  | c :: rest =>
    if p.isPrefixOf (c :: rest) then b ++ (c :: rest).drop p.length
    else c :: replaceFirst p b rest

/-- `a_re.sub(b, t)` for a nonempty literal pattern: replace every
non-overlapping occurrence, scanning left to right and never rescanning
replacement text. -/
def replaceAll (p b : Tok) : Tok → Tok
  | [] => if p = [] then b else []
  | c :: rest =>
    if h : p ≠ [] ∧ p.isPrefixOf (c :: rest) then
      b ++ replaceAll p b ((c :: rest).drop p.length)
    else c :: replaceAll p b rest
termination_by t => t.length
decreasing_by
  · have hp : 0 < p.length := List.length_pos.mpr h.1
    simp only [List.length_drop, List.length_cons]
    omega
  · simp

/-- `a_re.sub(b, token, 1)`: first-occurrence-only substitution, as used by
`Stemmer._parse`. -/
def Pat.sub1 : Pat → Tok → Tok → Tok
  | Pat.startsWith core, b, t =>
    if core.isPrefixOf t then b ++ t.drop core.length else t
  | Pat.endsWith core, b, t =>
    if core.isSuffixOf t then t.take (t.length - core.length) ++ b else t
  | Pat.lit core, b, t => replaceFirst core b t

/-- `a_re.sub(b, token)`: all-occurrence substitution, as used by
`Stemmer.stem`.  An anchored pattern can match at most once, so only the
bare-literal case differs from `Pat.sub1`. -/
def Pat.subAll : Pat → Tok → Tok → Tok
  | Pat.startsWith core, b, t =>
    if core.isPrefixOf t then b ++ t.drop core.length else t
  | Pat.endsWith core, b, t =>
    if core.isSuffixOf t then t.take (t.length - core.length) ++ b else t
  | Pat.lit core, b, t => replaceAll core b t

/-- ASCII uppercase test, for the class-marker expression. -/
def isUpperAZ (c : Char) : Bool := 'A' ≤ c && c ≤ 'Z'

/-- `self.class_re.match(m)` for
`class_re = regex.compile(r'\x5c\x7b\x5c\x7b[A-Z]+\x5c\x7d\x5c\x7d')`:
`m` begins with two left braces, then one or more ASCII uppercase letters,
then two right braces. -/
def classReMatch (m : Tok) : Bool :=
  match m with
  | c1 :: c2 :: rest =>
    c1 = lbrace && c2 = lbrace &&
      (let u := rest.takeWhile isUpperAZ
       !u.isEmpty && ((rest.drop u.length).take 2 = [rbrace, rbrace] : Bool))
  | _ => false

/-- A compiled rule `(pos, a_re, b, glosses)` as appended by
`Stemmer._read_rules`. -/
structure Rule where
  pos : Pos
  pat : Pat
  repl : Tok
  glosses : List Tok
deriving DecidableEq

/-- One non-header row of a rule source: `(pattern, replacement, dotted
gloss field)`. -/
structure RuleRecord where
  pattern : Tok
  replacement : Tok
  glossField : Tok
deriving DecidableEq

/-- Processing of one rule record by `Stemmer._read_rules`: NFD-normalize
pattern and replacement, classify the anchors, compile the pattern
(stripping the recognised anchor), and split the gloss field on `'.'`. -/
def compileRule (row : RuleRecord) : Except RuleErr Rule :=
  match classify (nfd row.pattern) with
  | Except.error e => Except.error e
  | Except.ok Pos.del =>
    Except.ok ⟨Pos.del, Pat.lit (nfd row.pattern), nfd row.replacement,
      row.glossField.splitOn '.'⟩
  | Except.ok Pos.pre =>
    Except.ok ⟨Pos.pre, Pat.startsWith (nfd row.pattern).tail,
      nfd row.replacement, row.glossField.splitOn '.'⟩
  | Except.ok Pos.suf =>
    Except.ok ⟨Pos.suf, Pat.endsWith (nfd row.pattern).dropLast,
      nfd row.replacement, row.glossField.splitOn '.'⟩

/-- `Stemmer._read_rules` over the rows after the header: rules are
compiled in source order, and the first failing row aborts the whole
construction (no partial rule table). -/
def readRules : List RuleRecord → Except RuleErr (List Rule)
  | [] => Except.ok []
  | row :: rows =>
    match compileRule row with
    | Except.error e => Except.error e
    | Except.ok r =>
      match readRules rows with
      | Except.error e => Except.error e
      | Except.ok rs => Except.ok (r :: rs)

/-- The rewrite loop of `Stemmer.stem`: for each rule in table order, break
on lexicon membership, else apply the all-occurrence substitution. -/
def stemGo (lex : List Tok) : List Rule → Tok → Tok
  | [], t => t
  | r :: rs, t =>
    if t ∈ lex then t else stemGo lex rs (r.pat.subAll r.repl t)

/-- `Stemmer.stem`: NFD-normalize the token, then run the rewrite loop. -/
def stem (lex : List Tok) (rules : List Rule) (token : Tok) : Tok :=
  stemGo lex rules (nfd token)

/-- The rewrite loop of `Stemmer._parse`.  `pre` and `suf` model the two
`deque` accumulators.  `deque.append`/`deque.extend` add at the back;
`deque.appendleft` adds at the front; `deque.extendleft` performs repeated
left appends, so it adds the iterable at the front in REVERSED order.
Evidence is recorded only when the pattern matches and the matched text is
not a class marker; the first-occurrence substitution is applied whenever
the pattern matches. -/
def parseGo (lex : List Tok) (gloss : Bool) :
    List Rule → List Tok → Tok → List Tok → List Tok × Tok × List Tok
  | [], pre, t, suf => (pre, t, suf)
  | r :: rs, pre, t, suf =>
    if t ∈ lex then (pre, t, suf)
    else
      match r.pat.search t with
      | none => parseGo lex gloss rs pre t suf
      | some m =>
        if classReMatch m then
          parseGo lex gloss rs pre (r.pat.sub1 r.repl t) suf
        else if gloss then
          match r.pos with
          | Pos.suf =>
            parseGo lex gloss rs pre (r.pat.sub1 r.repl t)
              (r.glosses.reverse ++ suf)
          | Pos.pre =>
            parseGo lex gloss rs (pre ++ r.glosses) (r.pat.sub1 r.repl t) suf
          | Pos.del => parseGo lex gloss rs pre (r.pat.sub1 r.repl t) suf
        else
          match r.pos with
          | Pos.suf =>
            parseGo lex gloss rs pre (r.pat.sub1 r.repl t) (m :: suf)
          | Pos.pre =>
            parseGo lex gloss rs (pre ++ [m]) (r.pat.sub1 r.repl t) suf
          | Pos.del => parseGo lex gloss rs pre (r.pat.sub1 r.repl t) suf

/-- `Stemmer._parse`: NFD-normalize the token and run the traversal with
empty accumulators, returning `(prefixes, residual token, suffixes)`. -/
def parseTriple (lex : List Tok) (rules : List Rule) (token : Tok)
    (gloss : Bool) : List Tok × Tok × List Tok :=
  parseGo lex gloss rules [] (nfd token) []

/-- `Stemmer.parse`: prefixes, then the stem, then the suffixes. -/
def parse (lex : List Tok) (rules : List Rule) (token : Tok)
    (gloss : Bool) : List Tok :=
  let res := parseTriple lex rules token gloss
  res.1 ++ res.2.1 :: res.2.2

/-- `Stemmer.segment`: concatenated prefix block, stem, concatenated suffix
block. -/
def segment (lex : List Tok) (rules : List Rule) (token : Tok) :
    Tok × Tok × Tok :=
  let res := parseTriple lex rules token false
  (res.1.flatten, res.2.1, res.2.2.flatten)

/-- `Stemmer.gloss`: `parse` in gloss mode. -/
def glossParse (lex : List Tok) (rules : List Rule) (token : Tok) :
    List Tok :=
  parse lex rules token true

/-- Spec-side companion of the `_parse` traversal: the literal suffix
matches recorded by the loop, listed in rule-APPLICATION order (gloss mode
off).  Used to state that the suffix accumulator comes out in reverse
rule-application order. -/
def suffixMatches (lex : List Tok) : List Rule → Tok → List Tok
  | [], _ => []
  | r :: rs, t =>
    if t ∈ lex then []
    else
      match r.pat.search t with
      | none => suffixMatches lex rs t
      | some m =>
        if classReMatch m then suffixMatches lex rs (r.pat.sub1 r.repl t)
        else
          match r.pos with
          | Pos.suf => m :: suffixMatches lex rs (r.pat.sub1 r.repl t)
          | Pos.pre => suffixMatches lex rs (r.pat.sub1 r.repl t)
          | Pos.del => suffixMatches lex rs (r.pat.sub1 r.repl t)

/-- Number of substitution calls performed by the `Stemmer.stem` loop: one
per iteration that is not cut short by the lexicon check. -/
def stemSubCount (lex : List Tok) : List Rule → Tok → Nat
  | [], _ => 0
  | r :: rs, t =>
    if t ∈ lex then 0 else stemSubCount lex rs (r.pat.subAll r.repl t) + 1

/-- Number of substitution calls performed by the `Stemmer._parse` loop:
one per iteration whose pattern search succeeds. -/
def parseSubCount (lex : List Tok) : List Rule → Tok → Nat
  | [], _ => 0
  | r :: rs, t =>
    if t ∈ lex then 0
    else
      match r.pat.search t with
      | none => parseSubCount lex rs t
      | some _ => parseSubCount lex rs (r.pat.sub1 r.repl t) + 1

/-- The anchor-free condition of claim C8 on a raw pattern: the pattern
does not both start with two left braces and end with two right braces,
does not begin with `'^'`, and does not end with `'$'`. -/
def anchorless (a : Tok) : Prop :=
  ¬(a.take 2 = [lbrace, lbrace] ∧ lastN 2 a = [rbrace, rbrace]) ∧
    a.take 1 ≠ ['^'] ∧ lastN 1 a ≠ ['$']

instance (a : Tok) : Decidable (anchorless a) := by
  unfold anchorless
  infer_instance

/-! ### Supporting lemmas about literal substitution and search -/

theorem replaceFirst_append_of_avoid (p b x s : Tok) (hp : p ≠ [])
    (hx : ∀ c ∈ x, c ∉ p) :
    replaceFirst p b (x ++ s) = x ++ replaceFirst p b s := by
  induction x with
  | nil => simp
  | cons c xs ih =>
    have hpre : ¬(p <+: (c :: (xs ++ s))) := by
      cases p with
      | nil => exact absurd rfl hp
      | cons d ds =>
        rw [List.cons_prefix_cons]
        rintro ⟨rfl, -⟩
        exact hx d (List.mem_cons_self d xs) (List.mem_cons_self d ds)
    have hpre2 : ¬(p.isPrefixOf (c :: (xs ++ s)) = true) := by
      simpa using hpre
    show replaceFirst p b (c :: (xs ++ s)) = c :: xs ++ replaceFirst p b s
    rw [replaceFirst, if_neg hpre2]
    simp only [List.cons_append, List.cons.injEq, true_and]
    exact ih (fun a ha => hx a (List.mem_cons_of_mem c ha))

theorem replaceFirst_head (p b s : Tok) (hp : p ≠ []) :
    replaceFirst p b (p ++ s) = b ++ s := by
  cases p with
  | nil => exact absurd rfl hp
  | cons d ds =>
    show replaceFirst (d :: ds) b (d :: (ds ++ s)) = b ++ s
    rw [replaceFirst, if_pos (by simp)]
    simp [List.drop_left]

theorem replaceAll_nil (p b : Tok) (hp : p ≠ []) : replaceAll p b [] = [] := by
  rw [replaceAll, if_neg hp]

theorem replaceAll_append_of_avoid (p b x s : Tok) (hp : p ≠ [])
    (hx : ∀ c ∈ x, c ∉ p) :
    replaceAll p b (x ++ s) = x ++ replaceAll p b s := by
  induction x with
  | nil => simp
  | cons c xs ih =>
    have hpre : ¬(p <+: (c :: (xs ++ s))) := by
      cases p with
      | nil => exact absurd rfl hp
      | cons d ds =>
        rw [List.cons_prefix_cons]
        rintro ⟨rfl, -⟩
        exact hx d (List.mem_cons_self d xs) (List.mem_cons_self d ds)
    show replaceAll p b (c :: (xs ++ s)) = c :: xs ++ replaceAll p b s
    rw [replaceAll, dif_neg (by rintro ⟨-, hpf⟩; exact hpre (by simpa using hpf))]
    simp only [List.cons_append, List.cons.injEq, true_and]
    exact ih (fun a ha => hx a (List.mem_cons_of_mem c ha))

theorem replaceAll_head (p b s : Tok) (hp : p ≠ []) :
    replaceAll p b (p ++ s) = b ++ replaceAll p b s := by
  cases p with
  | nil => exact absurd rfl hp
  | cons d ds =>
    show replaceAll (d :: ds) b (d :: (ds ++ s)) = b ++ replaceAll (d :: ds) b s
    rw [replaceAll, dif_pos ⟨by simp, by simp⟩]
    simp [List.drop_left]

theorem replaceAll_of_avoid (p b z : Tok) (hp : p ≠ [])
    (hz : ∀ c ∈ z, c ∉ p) : replaceAll p b z = z := by
  have h := replaceAll_append_of_avoid p b z [] hp hz
  rw [List.append_nil] at h
  rw [h, replaceAll_nil p b hp, List.append_nil]

theorem occursB_of_right (p x s : Tok) (hs : occursB p s = true) :
    occursB p (x ++ s) = true := by
  induction x with
  | nil => simpa using hs
  | cons c xs ih =>
    show occursB p (c :: (xs ++ s)) = true
    rw [occursB]
    simp [ih]

theorem occursB_head (p s : Tok) (hp : p ≠ []) :
    occursB p (p ++ s) = true := by
  cases p with
  | nil => exact absurd rfl hp
  | cons d ds =>
    show occursB (d :: ds) (d :: (ds ++ s)) = true
    rw [occursB]
    simp

/-! ### Supporting lemmas about `nfd` and anchor classification -/

theorem charNFD_ne_nil (c : Char) : charNFD c ≠ [] := by
  unfold charNFD
  split <;> simp

theorem nfd_cons (c : Char) (r : Tok) : nfd (c :: r) = charNFD c ++ nfd r := by
  simp [nfd]

theorem nfd_ne_nil (a : Tok) (ha : a ≠ []) : nfd a ≠ [] := by
  cases a with
  | nil => exact absurd rfl ha
  | cons c r =>
    rw [nfd_cons]
    intro h
    exact charNFD_ne_nil c (List.append_eq_nil.mp h).1

/-- Per-character reversed decomposition, the building block of
`nfd_reverse`. -/
def charNFDRev (c : Char) : Tok := (charNFD c).reverse

theorem charNFDRev_ne_nil (c : Char) : charNFDRev c ≠ [] := by
  unfold charNFDRev charNFD
  split <;> simp

/-- Reversal of a decomposed string: decompose the reversal
character-by-character with reversed decompositions. -/
def revNFD (q : Tok) : Tok := q.flatMap charNFDRev

theorem nfd_reverse (p : Tok) : (nfd p).reverse = revNFD p.reverse := by
  induction p with
  | nil => rfl
  | cons c r ih =>
    rw [nfd_cons, List.reverse_append, ih, List.reverse_cons]
    simp [revNFD, List.flatMap_append, charNFDRev]

theorem take1_flatMap_eq (g : Char → Tok) (T : Char)
    (hg : ∀ c, g c ≠ []) (hhead : ∀ c, (g c).head? = some T → c = T)
    (p : Tok) (h : (p.flatMap g).take 1 = [T]) : p.take 1 = [T] := by
  cases p with
  | nil => simp at h
  | cons c r =>
    rcases hgc : g c with _ | ⟨d, ds⟩
    · exact absurd hgc (hg c)
    · rw [List.flatMap_cons, hgc] at h
      have hd : d = T := by simpa using congrArg List.head? h
      have hc : c = T := hhead c (by rw [hgc, hd]; rfl)
      simp [hc]

theorem take2_flatMap_eq (g : Char → Tok) (T : Char)
    (hg : ∀ c, g c ≠ []) (hhead : ∀ c, (g c).head? = some T → c = T)
    (hT : g T = [T]) (p : Tok) (h : (p.flatMap g).take 2 = [T, T]) :
    p.take 2 = [T, T] := by
  match p with
  | [] => simp at h
  | [c] =>
    rcases hgc : g c with _ | ⟨d, ds⟩
    · exact absurd hgc (hg c)
    · rw [List.flatMap_cons, hgc] at h
      simp only [List.flatMap_nil, List.append_nil] at h
      have hd : d = T := by simpa using congrArg List.head? h
      have hc : c = T := hhead c (by rw [hgc, hd]; rfl)
      rw [hc, hT] at hgc
      injection hgc with hTd hds
      rw [← hds] at h
      simp [← hTd] at h
  | c :: c2 :: r =>
    rcases hgc : g c with _ | ⟨d, ds⟩
    · exact absurd hgc (hg c)
    · rw [List.flatMap_cons, hgc] at h
      have hd : d = T := by simpa using congrArg List.head? h
      have hc : c = T := hhead c (by rw [hgc, hd]; rfl)
      rw [hc, hT] at hgc
      injection hgc with hTd hds
      rw [← hds, ← hTd] at h
      simp only [List.nil_append, List.cons_append, List.take_succ_cons,
        List.cons.injEq, true_and] at h
      have h1 : ((c2 :: r).flatMap g).take 1 = [T] := by
        rw [List.flatMap_cons]
        simpa using h
      have h2 : (c2 :: r).take 1 = [T] := take1_flatMap_eq g T hg hhead _ h1
      have hc2 : c2 = T := by simpa using h2
      simp [hc, hc2]

theorem charNFD_head_eq (T : Char) (hT1 : T ≠ 'e') (c : Char)
    (hc : (charNFD c).head? = some T) : c = T := by
  unfold charNFD at hc
  split at hc
  · simp only [List.head?_cons, Option.some.injEq] at hc
    exact absurd hc.symm hT1
  · simp only [List.head?_cons, Option.some.injEq] at hc
    exact hc

theorem charNFDRev_head_eq (T : Char) (hT1 : T ≠ combAcute) (c : Char)
    (hc : (charNFDRev c).head? = some T) : c = T := by
  unfold charNFDRev charNFD at hc
  split at hc
  · simp only [List.reverse_cons, List.reverse_nil, List.nil_append,
      List.singleton_append, List.head?_cons, Option.some.injEq] at hc
    exact absurd hc.symm hT1
  · simp only [List.reverse_cons, List.reverse_nil, List.nil_append,
      List.head?_cons, Option.some.injEq] at hc
    exact hc

theorem nfd_take2_brace (p : Tok) (h : (nfd p).take 2 = [lbrace, lbrace]) :
    p.take 2 = [lbrace, lbrace] := by
  exact take2_flatMap_eq charNFD lbrace charNFD_ne_nil
    (charNFD_head_eq lbrace (by decide)) (by decide) p h

theorem nfd_take1_caret (p : Tok) (h : (nfd p).take 1 = ['^']) :
    p.take 1 = ['^'] := by
  exact take1_flatMap_eq charNFD '^' charNFD_ne_nil
    (charNFD_head_eq '^' (by decide)) p h

theorem nfd_last2_brace (p : Tok)
    (h : lastN 2 (nfd p) = [rbrace, rbrace]) :
    lastN 2 p = [rbrace, rbrace] := by
  unfold lastN at h ⊢
  have h1 : (nfd p).reverse.take 2 = [rbrace, rbrace] := by
    have h0 := congrArg List.reverse h
    simpa using h0
  rw [nfd_reverse] at h1
  have h2 : p.reverse.take 2 = [rbrace, rbrace] :=
    take2_flatMap_eq charNFDRev rbrace charNFDRev_ne_nil
      (charNFDRev_head_eq rbrace (by decide)) (by decide) p.reverse h1
  rw [h2]
  decide

theorem nfd_last1_dollar (p : Tok) (h : lastN 1 (nfd p) = ['$']) :
    lastN 1 p = ['$'] := by
  unfold lastN at h ⊢
  have h1 : (nfd p).reverse.take 1 = ['$'] := by
    have h0 := congrArg List.reverse h
    simpa using h0
  rw [nfd_reverse] at h1
  have h2 : p.reverse.take 1 = ['$'] :=
    take1_flatMap_eq charNFDRev '$' charNFDRev_ne_nil
      (charNFDRev_head_eq '$' (by decide)) p.reverse h1
  rw [h2]
  decide

theorem classify_nfd_malformed (a : Tok) (ha : a ≠ []) (h : anchorless a) :
    classify (nfd a) = Except.error RuleErr.malformed := by
  obtain ⟨h1, h2, h3⟩ := h
  have hnil : nfd a ≠ [] := nfd_ne_nil a ha
  unfold classify
  have hcond : ¬((nfd a).take 2 = [lbrace, lbrace] ∧
      lastN 2 (nfd a) = [rbrace, rbrace]) := by
    rintro ⟨hb1, hb2⟩
    exact h1 ⟨nfd_take2_brace a hb1, nfd_last2_brace a hb2⟩
  rw [if_neg hcond]
  rcases hq : nfd a with _ | ⟨c, rest⟩
  · exact absurd hq hnil
  · have hcaret : c ≠ '^' := by
      intro rfl2
      refine h2 (nfd_take1_caret a ?_)
      rw [hq, rfl2]
      rfl
    have hdollar : lastN 1 (c :: rest) ≠ ['$'] := by
      intro hd
      exact h3 (nfd_last1_dollar a (by rw [hq]; exact hd))
    simp [hcaret, hdollar]

theorem classify_ne_index (a : Tok) (ha : a ≠ []) :
    classify a ≠ Except.error RuleErr.indexError := by
  rcases a with _ | ⟨c, rest⟩
  · exact absurd rfl ha
  · unfold classify
    by_cases h1 : (c :: rest).take 2 = [lbrace, lbrace] ∧
        lastN 2 (c :: rest) = [rbrace, rbrace]
    · rw [if_pos h1]
      simp
    · rw [if_neg h1]
      by_cases h2 : c = '^'
      · simp [h2]
      · by_cases h3 : lastN 1 (c :: rest) = ['$']
        · simp [h2, h3]
        · simp [h2, h3]

theorem compileRule_error_classify (row : RuleRecord) (e : RuleErr)
    (h : compileRule row = Except.error e) :
    classify (nfd row.pattern) = Except.error e := by
  unfold compileRule at h
  rcases hcl : classify (nfd row.pattern) with e2 | pos
  · rw [hcl] at h
    simp only at h
    cases h
    rfl
  · rw [hcl] at h
    cases pos <;> simp at h

/-! ### Supporting lemmas about the rewrite loops -/

theorem parseGo_suffix_trace (lex : List Tok) (rules : List Rule) :
    ∀ (pre : List Tok) (t : Tok) (suf : List Tok),
      (parseGo lex false rules pre t suf).2.2 =
        (suffixMatches lex rules t).reverse ++ suf := by
  induction rules with
  | nil => intro pre t suf; simp [parseGo, suffixMatches]
  | cons r rs ih =>
    intro pre t suf
    by_cases hl : t ∈ lex
    · simp [parseGo, suffixMatches, hl]
    · rw [parseGo, if_neg hl, suffixMatches, if_neg hl]
      rcases hs : r.pat.search t with _ | m
      · exact ih pre t suf
      · by_cases hc : classReMatch m = true
        · simp only [hc, if_true]
          exact ih pre _ suf
        · simp only [Bool.not_eq_true] at hc
          simp only [hc, Bool.false_eq_true, if_false]
          cases hpos : r.pos
          · exact ih _ _ suf
          · rw [ih pre _ (m :: suf)]
            simp [List.append_assoc]
          · exact ih pre _ suf

theorem stemSubCount_le (lex : List Tok) (rules : List Rule) :
    ∀ t : Tok, stemSubCount lex rules t ≤ rules.length := by
  induction rules with
  | nil => intro t; simp [stemSubCount]
  | cons r rs ih =>
    intro t
    rw [stemSubCount]
    by_cases hl : t ∈ lex
    · simp [hl]
    · rw [if_neg hl]
      simpa [List.length_cons] using
        Nat.add_le_add_right (ih (r.pat.subAll r.repl t)) 1

theorem parseSubCount_le (lex : List Tok) (rules : List Rule) :
    ∀ t : Tok, parseSubCount lex rules t ≤ rules.length := by
  induction rules with
  | nil => intro t; simp [parseSubCount]
  | cons r rs ih =>
    intro t
    rw [parseSubCount]
    by_cases hl : t ∈ lex
    · simp [hl]
    · rw [if_neg hl]
      rcases r.pat.search t with _ | m
      · exact Nat.le_succ_of_le (ih t)
      · simpa [List.length_cons] using
          Nat.add_le_add_right (ih (r.pat.sub1 r.repl t)) 1

/-! ### Concrete fixtures from the specification's examples -/

/-- Lexicon containing only `walk`. -/
def lexWalk : List Tok := [['w', 'a', 'l', 'k']]

/-- Compiled form of the record `("s$", "", "PL")`. -/
def ruleS : Rule := ⟨Pos.suf, Pat.endsWith ['s'], [], [['P', 'L']]⟩

/-- Compiled form of the record `("ed$", "", "PST")`. -/
def ruleEd : Rule := ⟨Pos.suf, Pat.endsWith ['e', 'd'], [], [['P', 'S', 'T']]⟩

/-- Compiled form of the record `("s$", "", "A.B")`: two glosses. -/
def ruleAB : Rule := ⟨Pos.suf, Pat.endsWith ['s'], [], [['A'], ['B']]⟩

/-- Suffix rule stripping a trailing combining acute accent. -/
def ruleMark : Rule := ⟨Pos.suf, Pat.endsWith [combAcute], [], [[]]⟩

/-- The literal text `un-`. -/
def unDash : Tok := ['u', 'n', '-']

/-- Compiled form of the record `("^un-", "", "neg")`. -/
def rule6a : Rule := ⟨Pos.pre, Pat.startsWith unDash, [], [['n', 'e', 'g']]⟩

/-- Compiled form of the record `("^un-", "X", "other")`. -/
def rule6b : Rule :=
  ⟨Pos.pre, Pat.startsWith unDash, ['X'], [['o', 't', 'h', 'e', 'r']]⟩

/-- Lexicon containing only `happy`. -/
def lexHappy : List Tok := [['h', 'a', 'p', 'p', 'y']]

/-- The token `unhappy`. -/
def tok6 : Tok := ['u', 'n', 'h', 'a', 'p', 'p', 'y']

/-- The token `un-happy`. -/
def tok6b : Tok := ['u', 'n', '-', 'h', 'a', 'p', 'p', 'y']

/-- The token `happy`. -/
def happyT : Tok := ['h', 'a', 'p', 'p', 'y']

/-! ### Claims -/

/-- C1: the specification requires the lexicon-membership check of `stem`
and `_parse` to identify NFD-equal strings, but `_read_lex` stores lexicon
entries unnormalized while the loops normalize the token, so a lexicon
entry in precomposed form is never matched.  With the lexicon entry U+00E9
and the NFD-equal, not byte-identical, decomposed token U+0065 U+0301, the
loop does not halt in the Matched state: it keeps rewriting (here stripping
the combining mark), and even the byte-identical precomposed token itself
is rewritten rather than matched. -/
theorem mstem_c1_normalization_bug :
    nfd [eAcute] = ['e', combAcute] ∧
    ([eAcute] : Tok) ≠ ['e', combAcute] ∧
    stem [[eAcute]] [ruleMark] ['e', combAcute] = ['e'] ∧
    stem [[eAcute]] [ruleMark] [eAcute] = ['e'] ∧
    (parseTriple [[eAcute]] [ruleMark] ['e', combAcute] false).2.1 = ['e'] := by
  decide

/-- C2 counterexample: with the suffix rule compiled from
`("s$", "", "A.B")` (gloss list `["A", "B"]`), gloss-mode parsing of
`walks` yields suffix glosses `["B", "A"]`, not `["A", "B"]`: the push
does NOT preserve the glosses' relative order. -/
theorem mstem_c2_counterexample :
    readRules [⟨['s', '$'], [], ['A', '.', 'B']⟩] = Except.ok [ruleAB] ∧
    glossParse lexWalk [ruleAB] ['w', 'a', 'l', 'k', 's'] =
      [['w', 'a', 'l', 'k'], ['B'], ['A']] ∧
    ([['w', 'a', 'l', 'k'], ['B'], ['A']] : List Tok) ≠
      [['w', 'a', 'l', 'k'], ['A'], ['B']] := by
  decide

/-- C2 amended: in gloss mode a matching Suffix-position rule pushes its
glosses onto the front of the suffix accumulator in REVERSED order
(`deque.extendleft` reverses its argument): afterwards the accumulator is
the reversed gloss list followed by its previous contents. -/
theorem mstem_c2_amended_reversed_push (lex : List Tok) (r : Rule)
    (m t : Tok) (pre suf : List Tok) (hlex : t ∉ lex)
    (hpos : r.pos = Pos.suf) (hsearch : r.pat.search t = some m)
    (hclass : classReMatch m = false) :
    (parseGo lex true [r] pre t suf).2.2 = r.glosses.reverse ++ suf := by
  rw [parseGo, if_neg hlex, hsearch]
  simp [hclass, hpos, parseGo]

/-- C2 amended, witness at a concrete input. -/
theorem mstem_c2_amended_witness :
    ((['w', 's'] : Tok) ∉ ([] : List Tok)) ∧
    ruleAB.pos = Pos.suf ∧
    ruleAB.pat.search ['w', 's'] = some ['s'] ∧
    classReMatch ['s'] = false ∧
    (parseGo ([] : List Tok) true [ruleAB] [] ['w', 's'] [['Q']]).2.2 =
      ruleAB.glosses.reverse ++ [['Q']] :=
  ⟨by decide, by decide, by decide, by decide,
    mstem_c2_amended_reversed_push [] ruleAB ['s'] ['w', 's'] [] [['Q']]
      (by decide) (by decide) (by decide) (by decide)⟩

/-- C3: with rules compiled from `("s$", "", "PL")` then
`("ed$", "", "PST")` and `walk` in the lexicon, `parse "walkeds"` is
`["walk", "ed", "s"]`: the suffix matched last sits next to the stem; and
in general the suffix portion of the `_parse` result is the reverse of the
suffix matches in rule-application order, in front of the accumulator's
prior contents. -/
theorem mstem_c3_affix_order :
    readRules [⟨['s', '$'], [], ['P', 'L']⟩,
        ⟨['e', 'd', '$'], [], ['P', 'S', 'T']⟩] =
      Except.ok [ruleS, ruleEd] ∧
    parse lexWalk [ruleS, ruleEd] ['w', 'a', 'l', 'k', 'e', 'd', 's'] false =
      [['w', 'a', 'l', 'k'], ['e', 'd'], ['s']] ∧
    ∀ (lex : List Tok) (rules : List Rule) (pre : List Tok) (t : Tok)
      (suf : List Tok),
      (parseGo lex false rules pre t suf).2.2 =
        (suffixMatches lex rules t).reverse ++ suf :=
  ⟨by decide, by decide, fun lex rules => parseGo_suffix_trace lex rules⟩

/-- C4: on a token carrying two non-overlapping occurrences of a literal
pattern, the `stem` loop's substitution replaces both occurrences while
the `_parse` traversal's substitution replaces only the first, leaving the
second intact in the residual stem. -/
theorem mstem_c4_substitution_scope (p b x y z : Tok) (gl : List Tok)
    (hp : p ≠ []) (hx : ∀ c ∈ x, c ∉ p) (hy : ∀ c ∈ y, c ∉ p)
    (hz : ∀ c ∈ z, c ∉ p)
    (hnfd : nfd (x ++ p ++ y ++ p ++ z) = x ++ p ++ y ++ p ++ z) :
    stem [] [⟨Pos.del, Pat.lit p, b, gl⟩] (x ++ p ++ y ++ p ++ z) =
      x ++ b ++ y ++ b ++ z ∧
    (parseTriple [] [⟨Pos.del, Pat.lit p, b, gl⟩] (x ++ p ++ y ++ p ++ z)
        false).2.1 = x ++ b ++ y ++ p ++ z := by
  have hocc : occursB p (x ++ (p ++ (y ++ (p ++ z)))) = true :=
    occursB_of_right p x _ (occursB_head p _ hp)
  have keyAll : replaceAll p b (x ++ (p ++ (y ++ (p ++ z)))) =
      x ++ (b ++ (y ++ (b ++ z))) := by
    rw [replaceAll_append_of_avoid p b x _ hp hx, replaceAll_head p b _ hp,
      replaceAll_append_of_avoid p b y _ hp hy, replaceAll_head p b z hp,
      replaceAll_of_avoid p b z hp hz]
  have keyFirst : replaceFirst p b (x ++ (p ++ (y ++ (p ++ z)))) =
      x ++ (b ++ (y ++ (p ++ z))) := by
    rw [replaceFirst_append_of_avoid p b x _ hp hx,
      replaceFirst_head p b _ hp]
  constructor
  · show stemGo [] [⟨Pos.del, Pat.lit p, b, gl⟩]
      (nfd (x ++ p ++ y ++ p ++ z)) = x ++ b ++ y ++ b ++ z
    rw [hnfd, stemGo, if_neg (List.not_mem_nil _), stemGo]
    show replaceAll p b (x ++ p ++ y ++ p ++ z) = x ++ b ++ y ++ b ++ z
    simpa [List.append_assoc] using keyAll
  · show (parseGo [] false [⟨Pos.del, Pat.lit p, b, gl⟩] []
      (nfd (x ++ p ++ y ++ p ++ z)) []).2.1 = x ++ b ++ y ++ p ++ z
    rw [hnfd, parseGo, if_neg (List.not_mem_nil _)]
    have hsearch : Pat.search (Pat.lit p) (x ++ p ++ y ++ p ++ z) = some p := by
      simp only [Pat.search]
      rw [if_pos (by simpa [List.append_assoc] using hocc)]
    rw [hsearch]
    by_cases hc : classReMatch p = true
    · simp only [hc, if_true, parseGo]
      show replaceFirst p b (x ++ p ++ y ++ p ++ z) = x ++ b ++ y ++ p ++ z
      simpa [List.append_assoc] using keyFirst
    · simp only [Bool.not_eq_true] at hc
      simp only [hc, Bool.false_eq_true, if_false, parseGo]
      show replaceFirst p b (x ++ p ++ y ++ p ++ z) = x ++ b ++ y ++ p ++ z
      simpa [List.append_assoc] using keyFirst

/-- C4, witness at a concrete input. -/
theorem mstem_c4_witness :
    ((['a'] : Tok) ≠ []) ∧
    (∀ c ∈ (['x'] : Tok), c ∉ (['a'] : Tok)) ∧
    (∀ c ∈ (['y'] : Tok), c ∉ (['a'] : Tok)) ∧
    (∀ c ∈ (['z'] : Tok), c ∉ (['a'] : Tok)) ∧
    nfd (['x'] ++ ['a'] ++ ['y'] ++ ['a'] ++ ['z']) =
      ['x'] ++ ['a'] ++ ['y'] ++ ['a'] ++ ['z'] ∧
    (stem [] [⟨Pos.del, Pat.lit ['a'], ['b'], []⟩]
        (['x'] ++ ['a'] ++ ['y'] ++ ['a'] ++ ['z']) =
      ['x'] ++ ['b'] ++ ['y'] ++ ['b'] ++ ['z'] ∧
    (parseTriple [] [⟨Pos.del, Pat.lit ['a'], ['b'], []⟩]
        (['x'] ++ ['a'] ++ ['y'] ++ ['a'] ++ ['z']) false).2.1 =
      ['x'] ++ ['b'] ++ ['y'] ++ ['a'] ++ ['z']) :=
  ⟨by decide, by decide, by decide, by decide, by decide,
    mstem_c4_substitution_scope ['a'] ['b'] ['x'] ['y'] ['z'] []
      (by decide) (by decide) (by decide) (by decide) (by decide)⟩

/-- C5 counterexample: the precomposed token U+00E9 is in the lexicon
`[U+00E9]`, yet with the empty rule table `stem` returns the decomposed
form U+0065 U+0301, not the token itself, and `parse` likewise: `stem`
normalizes before (and without) consulting the lexicon. -/
theorem mstem_c5_counterexample :
    ([eAcute] : Tok) ∈ ([[eAcute]] : List Tok) ∧
    stem [[eAcute]] [] [eAcute] = ['e', combAcute] ∧
    stem [[eAcute]] [] [eAcute] ≠ [eAcute] ∧
    parse [[eAcute]] [] [eAcute] false ≠ [[eAcute]] := by
  decide

/-- C5 amended: for every token that is NFD-normal and present in the
lexicon, and any rule table, `stem` returns the token unchanged and
`parse` returns the singleton list of the token. -/
theorem mstem_c5_amended_idempotence (lex : List Tok) (rules : List Rule)
    (t : Tok) (hnfd : nfd t = t) (hmem : t ∈ lex) :
    stem lex rules t = t ∧ parse lex rules t false = [t] := by
  constructor
  · cases rules with
    | nil =>
      show stemGo lex [] (nfd t) = t
      rw [hnfd, stemGo]
    | cons r rs =>
      show stemGo lex (r :: rs) (nfd t) = t
      rw [hnfd, stemGo, if_pos hmem]
  · cases rules with
    | nil => simp [parse, parseTriple, parseGo, hnfd]
    | cons r rs => simp [parse, parseTriple, parseGo, hnfd, hmem]

/-- C5 amended, witness at a concrete input. -/
theorem mstem_c5_witness :
    nfd ['w'] = ['w'] ∧ (['w'] : Tok) ∈ ([['w']] : List Tok) ∧
    stem [['w']] [] ['w'] = ['w'] ∧ parse [['w']] [] ['w'] false = [['w']] :=
  ⟨by decide, by decide,
    (mstem_c5_amended_idempotence [['w']] [] ['w'] (by decide) (by decide)).1,
    (mstem_c5_amended_idempotence [['w']] [] ['w'] (by decide) (by decide)).2⟩

/-- C6 counterexample: the rule pattern `^un-` requires a literal hyphen,
which `unhappy` does not contain, so with rules compiled from
`("^un-", "", "neg")` and `("^un-", "X", "other")` and `happy` in the
lexicon, `stem "unhappy"` returns `"unhappy"`, not `"happy"`. -/
theorem mstem_c6_counterexample :
    readRules [⟨'^' :: unDash, [], ['n', 'e', 'g']⟩,
        ⟨'^' :: unDash, ['X'], ['o', 't', 'h', 'e', 'r']⟩] =
      Except.ok [rule6a, rule6b] ∧
    stem lexHappy [rule6a, rule6b] tok6 = tok6 ∧
    tok6 ≠ happyT := by
  decide

/-- C6 amended: on the token `un-happy` (which does contain the hyphen the
pattern demands) the first rule strips `un-`, the resulting `happy` matches
the lexicon, and the loop halts at once: the result is `happy` no matter
what the second rule is, so the second rule's substitution is never
applied. -/
theorem mstem_c6_amended_order :
    stem lexHappy [rule6a, rule6b] tok6b = happyT ∧
    ∀ r2 : Rule, stem lexHappy [rule6a, r2] tok6b = happyT := by
  constructor
  · decide
  · intro r2
    show stemGo lexHappy [rule6a, r2] (nfd tok6b) = happyT
    have h1 : nfd tok6b = tok6b := by decide
    rw [h1, stemGo, if_neg (by decide)]
    have h2 : rule6a.pat.subAll rule6a.repl tok6b = happyT := by decide
    rw [h2, stemGo, if_pos (by decide)]

/-- C7 counterexample: an empty lexicon line does not "fail to split" and
is not skipped: Python splitting yields `['']`, so the line contributes the
empty string as a lexicon entry. -/
theorem mstem_c7_counterexample :
    readLex '\t' [[[]]] = [[]] ∧ ([] : Tok) ∈ readLex '\t' [[[]]] := by
  decide

/-- C7 amended: lexicon loading never raises and never skips a line: a
string belongs to the loaded lexicon exactly when it is the first
delimiter-field of the stripped text of some line of some source (an empty
line thus contributes the empty string). -/
theorem mstem_c7_amended_membership (delim : Char) (files : List (List Tok))
    (t : Tok) :
    t ∈ readLex delim files ↔
      ∃ file ∈ files, ∃ line ∈ file, t = firstField delim line := by
  simp only [readLex, List.mem_flatMap, List.mem_map]
  constructor
  · rintro ⟨file, hfile, line, hline, heq⟩
    exact ⟨file, hfile, line, hline, heq.symm⟩
  · rintro ⟨file, hfile, line, hline, heq⟩
    exact ⟨file, hfile, line, hline, heq.symm⟩

/-- C8 counterexample: the empty pattern satisfies the claim's "no
recognizable anchor" condition, yet construction fails with the index
error from `a[0]`, not with `MalformedRuleError`. -/
theorem mstem_c8_counterexample :
    anchorless ([] : Tok) ∧
    readRules [⟨[], [], []⟩] = Except.error RuleErr.indexError ∧
    readRules [⟨[], [], []⟩] ≠ Except.error RuleErr.malformed := by
  decide

/-- C8 amended: for every rule source whose non-header records all have
NONEMPTY patterns, if any record's pattern has no recognizable anchor then
construction fails with `MalformedRuleError` and yields no rule table (an
empty-pattern record instead aborts with an `IndexError`). -/
theorem mstem_c8_amended_rejection (rows : List RuleRecord)
    (hne : ∀ row ∈ rows, row.pattern ≠ [])
    (hbad : ∃ row ∈ rows, anchorless row.pattern) :
    readRules rows = Except.error RuleErr.malformed := by
  induction rows with
  | nil =>
    rcases hbad with ⟨row, hmem, -⟩
    exact absurd hmem (List.not_mem_nil row)
  | cons row rows ih =>
    by_cases hb : anchorless row.pattern
    · have hc : classify (nfd row.pattern) = Except.error RuleErr.malformed :=
        classify_nfd_malformed _ (hne row (List.mem_cons_self row rows)) hb
      rw [readRules]
      unfold compileRule
      rw [hc]
    · rcases hbad with ⟨row2, hmem, hb2⟩
      rcases List.mem_cons.mp hmem with heq | hmem2
      · exact absurd (heq ▸ hb2) hb
      · have hrest : readRules rows = Except.error RuleErr.malformed :=
          ih (fun q hq => hne q (List.mem_cons_of_mem row hq))
            ⟨row2, hmem2, hb2⟩
        rw [readRules]
        rcases hcr : compileRule row with e | r
        · have hcl : classify (nfd row.pattern) = Except.error e :=
            compileRule_error_classify row e hcr
          have hnotidx : e ≠ RuleErr.indexError := by
            intro heq2
            exact classify_ne_index (nfd row.pattern)
              (nfd_ne_nil _ (hne row (List.mem_cons_self row rows)))
              (heq2 ▸ hcl)
          cases e
          · rfl
          · exact absurd rfl hnotidx
        · rw [hrest]

/-- C8 amended, witness at a concrete input. -/
theorem mstem_c8_witness :
    (∀ row ∈ [(⟨['h', 'a', 'p', 'p', 'y'], [], []⟩ : RuleRecord)],
      row.pattern ≠ []) ∧
    (∃ row ∈ [(⟨['h', 'a', 'p', 'p', 'y'], [], []⟩ : RuleRecord)],
      anchorless row.pattern) ∧
    readRules [⟨['h', 'a', 'p', 'p', 'y'], [], []⟩] =
      Except.error RuleErr.malformed :=
  ⟨by decide, by decide,
    mstem_c8_amended_rejection [⟨['h', 'a', 'p', 'p', 'y'], [], []⟩]
      (by decide) (by decide)⟩

/-- C9: the `stem` loop makes at most one substitution call per rule and
the `_parse` loop at most one per rule (each is cut short by lexicon
membership), so both are bounded by the rule-table length and terminate;
and with the empty rule table `stem` returns exactly the NFD-normalized
token. -/
theorem mstem_c9_termination_bound (lex : List Tok) (rules : List Rule)
    (t : Tok) :
    stemSubCount lex rules (nfd t) ≤ rules.length ∧
    parseSubCount lex rules (nfd t) ≤ rules.length ∧
    stem lex [] t = nfd t :=
  ⟨stemSubCount_le lex rules (nfd t), parseSubCount_le lex rules (nfd t),
    rfl⟩

/-- C10: a non-header record with an empty pattern makes construction fail
with the index error of `a[0]` during anchor classification (not with
`MalformedRuleError`): classification is partial on empty patterns.  The
records before it are assumed to compile, so that classification actually
reaches the empty pattern. -/
theorem mstem_c10_empty_pattern_index (b g : Tok)
    (pre post : List RuleRecord)
    (hpre : ∀ row ∈ pre, ∃ r, compileRule row = Except.ok r) :
    readRules (pre ++ (⟨[], b, g⟩ : RuleRecord) :: post) =
      Except.error RuleErr.indexError ∧
    classify [] = Except.error RuleErr.indexError := by
  constructor
  · have key : ∀ qs : List RuleRecord,
        (∀ row ∈ qs, ∃ r, compileRule row = Except.ok r) →
        readRules (qs ++ (⟨[], b, g⟩ : RuleRecord) :: post) =
          Except.error RuleErr.indexError := by
      intro qs
      induction qs with
      | nil =>
        intro _
        have hcl : classify (nfd ([] : Tok)) =
            Except.error RuleErr.indexError := by decide
        have h0 : compileRule ⟨[], b, g⟩ =
            Except.error RuleErr.indexError := by
          unfold compileRule
          rw [show (⟨[], b, g⟩ : RuleRecord).pattern = ([] : Tok) from rfl,
            hcl]
        rw [List.nil_append, readRules, h0]
      | cons row rows ih =>
        intro hq
        rcases hq row (List.mem_cons_self row rows) with ⟨r, hr⟩
        rw [List.cons_append, readRules, hr,
          ih (fun q hqq => hq q (List.mem_cons_of_mem row hqq))]
    exact key pre hpre
  · decide

/-- C10, witness at a concrete input. -/
theorem mstem_c10_witness :
    (∀ row ∈ [(⟨['s', '$'], [], []⟩ : RuleRecord)],
      ∃ r, compileRule row = Except.ok r) ∧
    readRules ([⟨['s', '$'], [], []⟩] ++
        (⟨[], [], []⟩ : RuleRecord) :: []) =
      Except.error RuleErr.indexError := by
  have hp : ∀ row ∈ [(⟨['s', '$'], [], []⟩ : RuleRecord)],
      ∃ r, compileRule row = Except.ok r := by
    intro row hrow
    have heq : row = ⟨['s', '$'], [], []⟩ := by
      simpa using hrow
    exact ⟨⟨Pos.suf, Pat.endsWith ['s'], [], [[]]⟩, by rw [heq]; decide⟩
  exact ⟨hp, (mstem_c10_empty_pattern_index [] []
    [⟨['s', '$'], [], []⟩] [] hp).1⟩

end Mstem
